import Mathlib

/-!
Verification of the bible-discrepancies repository: a shallow embedding of
`extract_bible_verses.py` and `find_contradictions.py` (reference parsing and
formatting, the reference-advance traversal loop, verse-text cleaning, and the
contradiction scorer), together with theorems settling the specification
claims.

Modelling conventions:
* Python strings are Lean `String`s; character-level work happens on `List Char`.
* Python `str.strip()` / regex `\s` use Unicode whitespace; we model whitespace
  with `Char.isWhitespace` (space, tab, CR, LF), which agrees on all inputs the
  programs deal with.
* Python regex semantics (leftmost match, greedy/lazy quantifiers, backtracking)
  are compiled by hand, for the concrete patterns in the source, into
  deterministic executable functions; the derivation of each is indicated at
  the definition.
* Python `float` arithmetic in the scorer is modelled with `ℚ`; `round(x, 1)`
  uses round-half-to-even, as Python does.
* Network fetches and BeautifulSoup HTML parsing are external collaborators
  (out of scope per the design document); they are modelled as oracles/abstract
  page structures supplied as arguments.
-/

namespace BibleDiscrepancies

/-- `BOOKS` from `extract_bible_verses.py`: the canonical ordered 66-book list. -/
def BOOKS : List String := [
  "Genesis", "Exodus", "Leviticus", "Numbers", "Deuteronomy", "Joshua", "Judges", "Ruth",
  "1 Samuel", "2 Samuel", "1 Kings", "2 Kings", "1 Chronicles", "2 Chronicles", "Ezra",
  "Nehemiah", "Esther", "Job", "Psalms", "Proverbs", "Ecclesiastes", "Song of Solomon",
  "Isaiah", "Jeremiah", "Lamentations", "Ezekiel", "Daniel", "Hosea", "Joel", "Amos",
  "Obadiah", "Jonah", "Micah", "Nahum", "Habakkuk", "Haggai", "Zechariah", "Malachi",
  "Matthew", "Mark", "Luke", "John", "Acts", "Romans", "1 Corinthians", "2 Corinthians",
  "Galatians", "Ephesians", "Philippians", "Colossians", "1 Thessalonians", "2 Thessalonians",
  "1 Timothy", "2 Timothy", "Titus", "Philemon", "Hebrews", "James", "1 Peter", "2 Peter",
  "1 John", "2 John", "3 John", "Jude", "Revelation"]

/-- `VERSION_CODES` from `extract_bible_verses.py`, as an association list. -/
def VERSION_CODES : List (String × String) := [
  ("KJV", "KJV"), ("NIV", "NIV"), ("NLT", "NLT"), ("ESV", "ESV"), ("CSB", "CSB"),
  ("TLB", "TLB"), ("DRA", "DRA"), ("EXB", "EXB"), ("AMP", "AMP"), ("GNT", "GNT"),
  ("CEB", "CEB")]

/-- Python `str.strip()` at the character-list level: drop leading and trailing
whitespace. -/
def trimList (cs : List Char) : List Char :=
  ((cs.dropWhile Char.isWhitespace).reverse.dropWhile Char.isWhitespace).reverse

/-- A book-name character for the regexes: `[A-Za-z\s]`. -/
def isBookChar (c : Char) : Bool := c.isAlpha || c.isWhitespace

/-- Decimal value accumulated left-to-right over digit characters: Python
`int(...)` on a digit string. -/
def natOfDigits (ds : List Char) : Nat :=
  ds.foldl (fun n c => 10 * n + (c.toNat - 48)) 0

/-- Decimal rendering of a natural number, as Python `str`/f-string
interpolation renders an `int` (no leading zeros; `0` renders as `"0"`). -/
def natToDigitChars (n : Nat) : List Char :=
  if n = 0 then ['0']
  else ((Nat.digits 10 n).map (fun d => Char.ofNat (d + 48))).reverse

/-- A decimal digit string in canonical form: no redundant leading `'0'`
(a single `'0'` is canonical). -/
def noLeadingZero (ds : List Char) : Bool :=
  if ds.length ≤ 1 then true else decide (ds.head? ≠ some '0')

/-- Python `list.index` (first occurrence), with `none` for `ValueError`. -/
def listIndexOf? (x : String) : List String → Option Nat
  | [] => none
  | y :: ys => if y = x then some 0 else (listIndexOf? x ys).map (· + 1)

/--
`parse_reference` from `extract_bible_verses.py` (lines 41–50).

The Python code strips the input, matches `^(\d*\s?[A-Za-z\s]+)\s+(\d+):(\d+)$`,
strips group 1 as the book name, converts groups 2 and 3 with `int`, and
requires the book to be in `BOOKS`.  Both failure modes (`InvalidReferenceFormat`
and `UnknownBook`, raised as `ValueError`) are modelled as `none`.

The regex is compiled by hand into a deterministic check.  Anchored at both
ends, neither character class matches `:`, and digits may occur only as the
optional run at the start, the chapter, and the verse; so the accepted strings
are exactly `t = D ++ L ++ C ++ ":" ++ V` where `D` is the maximal digit prefix,
`V` is the maximal digit suffix (nonempty), `C` is the maximal digit run before
the `:` (nonempty), the character before `C` is whitespace, and
`L = t-between-D-and-C` is all `[A-Za-z\s]`, with `|L| ≥ 2` (it must split into
a nonempty `\s?[A-Za-z\s]+` part and a nonempty `\s+` part; note
`\s?[A-Za-z\s]+` matches exactly the nonempty strings over `[A-Za-z\s]`).
Group 1 stripped is then `(D ++ L).strip()`.
-/
def parse_reference (ref : String) : Option (String × Nat × Nat) :=
  let t := trimList ref.toList
  let r := t.reverse
  let vD := r.takeWhile Char.isDigit
  let r1 := r.dropWhile Char.isDigit
  if vD.isEmpty then none else
  match r1 with
  | ':' :: r2 =>
    let cD := r2.takeWhile Char.isDigit
    let r3 := r2.dropWhile Char.isDigit
    if cD.isEmpty then none else
    match r3 with
    | [] => none
    | w :: _ =>
      if ¬ w.isWhitespace then none else
      let bAll := r3.reverse
      let lPart := bAll.dropWhile Char.isDigit
      if lPart.length < 2 then none else
      if ¬ lPart.all isBookChar then none else
      let book := String.mk (trimList bAll)
      if book ∈ BOOKS then some (book, natOfDigits cD.reverse, natOfDigits vD.reverse)
      else none
  | _ => none

/-- The reference formatter: the f-string
`f"{current_book} {current_chapter}:{current_verse}"` of
`extract_bible_verses.py` line 137. -/
def formatReference (b : String) (c v : Nat) : String :=
  b ++ " " ++ String.mk (natToDigitChars c) ++ ":" ++ String.mk (natToDigitChars v)

/--
The reference parsing of the single-verse contradiction tool:
`find_contradictions.py`, `main`, lines 126–134.  The input is stripped and
matched against `^([A-Za-z\s]+)\s+(\d+):(\d+)$` (no leading-digit prefix in the
book group, and no membership check against a canonical book list); group 1 is
stripped as the book name.  Hand-compiled like `parse_reference`: here the part
before the chapter digits must be entirely `[A-Za-z\s]`, of length ≥ 2, ending
in whitespace.
-/
def fc_parse_reference (refArg : String) : Option (String × Nat × Nat) :=
  let t := trimList refArg.toList
  let r := t.reverse
  let vD := r.takeWhile Char.isDigit
  let r1 := r.dropWhile Char.isDigit
  if vD.isEmpty then none else
  match r1 with
  | ':' :: r2 =>
    let cD := r2.takeWhile Char.isDigit
    let r3 := r2.dropWhile Char.isDigit
    if cD.isEmpty then none else
    match r3 with
    | [] => none
    | w :: _ =>
      if ¬ w.isWhitespace then none else
      let bAll := r3.reverse
      if bAll.length < 2 then none else
      if ¬ bAll.all isBookChar then none else
      some (String.mk (trimList bAll), natOfDigits cD.reverse, natOfDigits vD.reverse)
  | _ => none

/-- Collapse whitespace runs to single spaces; the `Bool` records whether the
previous character was whitespace (so the run emits one `' '`). -/
def collapseWsAux : Bool → List Char → List Char
  | _, [] => []
  | prevWs, c :: cs =>
    if c.isWhitespace then
      if prevWs then collapseWsAux true cs else ' ' :: collapseWsAux true cs
    else c :: collapseWsAux false cs

/-- Whitespace normalization (the equivalence the round-trip law is stated
modulo): strip, then collapse every whitespace run to a single space. -/
def normalizeWs (s : String) : String :=
  String.mk (collapseWsAux false (trimList s.toList))

/-!
## Reference traversal engine (`advance_reference`, lines 88–116)

The network probe `get_verse_text("NIV", book, chapter, verse, session)` used
inside the loop is the external oracle of the traversal (§4.3 of the design
document treats the website as the validity oracle); it is modelled as a
function `oracle : String → Nat → Nat → Bool` answering whether the probed
reference has text.
-/

/-- One candidate-state update of the traversal loop (the code after a failed
probe: `test_verse += 1; if test_verse > 176: ... if test_chapter > 150:
try: idx = BOOKS.index(test_book) + 1 ...`).  `none` covers both the
end-of-corpus `return None` and the `except ValueError: return None`. -/
def nextCandidate (b : String) (c v : Nat) : Option (String × Nat × Nat) :=
  if v + 1 > 176 then
    if c + 1 > 150 then
      match listIndexOf? b BOOKS with
      | none => none
      | some idx =>
        if idx + 1 < BOOKS.length then some (BOOKS.getD (idx + 1) "", 1, 1)
        else none
    else some (b, c + 1, 1)
  else some (b, c, v + 1)

/-- The `while attempts < max_attempts` loop of `advance_reference`, with the
remaining attempt budget as fuel.  Returns the Python return value together
with the final value of the `attempts` counter (number of probes issued). -/
def advanceLoop (oracle : String → Nat → Nat → Bool) :
    Nat → String → Nat → Nat → Option (String × Nat × Nat) × Nat
  | 0, _, _, _ => (none, 0)
  | fuel + 1, b, c, v =>
    if oracle b c v then (some (b, c, v), 1)
    else
      match nextCandidate b c v with
      | none => (none, 1)
      | some s =>
        let p := advanceLoop oracle fuel s.1 s.2.1 s.2.2
        (p.1, p.2 + 1)

/-- `advance_reference` (lines 88–116): starting from `(book, chapter, verse)`,
probe `(book, chapter, verse+1)` first, with `max_attempts = 300`. -/
def advance_reference (oracle : String → Nat → Nat → Bool)
    (b : String) (c v : Nat) : Option (String × Nat × Nat) :=
  (advanceLoop oracle 300 b c (v + 1)).1

/-- The number of probes (`attempts`) `advance_reference` issues. -/
def advance_attempts (oracle : String → Nat → Nat → Bool)
    (b : String) (c v : Nat) : Nat :=
  (advanceLoop oracle 300 b c (v + 1)).2

/-- Canonical position of a book: its index in `BOOKS`, with the list length
(66) for names outside the list.  Used to state the traversal order. -/
def bookPos (b : String) : Nat := (listIndexOf? b BOOKS).getD BOOKS.length

/-- Strict lexicographic order on references: (canonical book index, chapter,
verse). -/
def refLt (x y : String × Nat × Nat) : Prop :=
  bookPos x.1 < bookPos y.1 ∨
    (bookPos x.1 = bookPos y.1 ∧
      (x.2.1 < y.2.1 ∨ (x.2.1 = y.2.1 ∧ x.2.2 < y.2.2)))

/-- Reflexive closure of `refLt`. -/
def refLe (x y : String × Nat × Nat) : Prop := refLt x y ∨ x = y

/-!
## Divergence scorer (`find_contradictions.py`)

Python `dict`s preserve insertion order; a variants mapping is modelled as an
association list in insertion order, and `list(variants.values())` as the list
of second components.  `float` arithmetic is modelled with `ℚ`.
-/

/-- Length bound for `dropWhile`, used for termination of scanners below. -/
theorem length_dropWhile_le (p : Char → Bool) (l : List Char) :
    (l.dropWhile p).length ≤ l.length := by
  induction l with
  | nil => simp [List.dropWhile]
  | cons c cs ih =>
    by_cases h : p c
    · simp [List.dropWhile, h]; omega
    · simp [List.dropWhile, h]

/-- Accumulator scanner for `str.split()`: `acc` holds the characters of the
word currently being read, in reverse. -/
def wordsAux : List Char → List Char → List (List Char)
  | acc, [] => if acc.isEmpty then [] else [acc.reverse]
  | acc, c :: cs =>
    if c.isWhitespace then
      if acc.isEmpty then wordsAux [] cs else acc.reverse :: wordsAux [] cs
    else wordsAux (c :: acc) cs

/-- Python `text.split()`: split on whitespace runs, no empty tokens. -/
def wordsOf (cs : List Char) : List (List Char) := wordsAux [] cs

/-- The word set of one variant text: `set(t.lower().split())`. -/
def wordSet (t : String) : List (List Char) :=
  (wordsOf (t.toList.map Char.toLower)).dedup

/-- `len(words_i.symmetric_difference(words_j))`. -/
def symmDiffSize (a b : String) : Nat :=
  let A := wordSet a
  let B := wordSet b
  ((A.filter (fun w => ¬ w ∈ B)) ++ (B.filter (fun w => ¬ w ∈ A))).length

/-- The diffs produced by the double loop `for i in range(len(texts)): for j in
range(i+1, len(texts))`, in that order. -/
def pairwiseDiffs : List String → List Nat
  | [] => []
  | t :: ts => ts.map (symmDiffSize t) ++ pairwiseDiffs ts

/-- Python `round` ties-to-even on an exact rational. -/
def roundHalfEven (q : ℚ) : ℤ :=
  let f := ⌊q⌋
  let r := q - f
  if r < 1/2 then f
  else if 1/2 < r then f + 1
  else if f % 2 = 0 then f else f + 1

/-- Python `round(x, 1)` (on an exactly represented value). -/
def roundTo1 (q : ℚ) : ℚ := (roundHalfEven (10 * q) : ℚ) / 10

/-- `calculate_contradiction_score` (`find_contradictions.py` lines 63–84). -/
def calculate_contradiction_score (variants : List (String × String)) : ℚ :=
  if variants.length < 2 then 0
  else
    let texts := variants.map Prod.snd
    let diffs := pairwiseDiffs texts
    let total_diff : Nat := diffs.sum
    let count : Nat := diffs.length
    if count = 0 then 0
    else
      let avg_diff : ℚ := (total_diff : ℚ) / (count : ℚ)
      let score := min 100 (avg_diff * 5)
      roundTo1 score

/-- Python `str.lower()` (character-wise). -/
def strLower (s : String) : String := String.mk (s.toList.map Char.toLower)

/-- Python substring test `needle in hay` (on already-lowercased text). -/
def containsSub (hay needle : String) : Bool :=
  decide (needle.toList <:+: hay.toList)

/-- `generate_short_contradiction_desc` (`find_contradictions.py` lines
87–117): ordered substring keyword rules on the first two variants' lowercased
texts, then score-band fallbacks. -/
def generate_short_contradiction_desc
    (variants : List (String × String)) (score : ℚ) : String :=
  if variants.length < 2 then "No significant differences detected."
  else
    let texts := variants.map Prod.snd
    let txt1 := strLower (texts.getD 0 "")
    let txt2 := strLower (texts.getD 1 "")
    if containsSub txt1 "begotten" && (containsSub txt2 "only" || containsSub txt2 "unique") then
      "Only begotten Son vs one and only Son."
    else if containsSub txt1 "perish" && containsSub txt2 "not perish" then
      "Eternal life vs perish vs not perish."
    else if containsSub txt1 "god" && containsSub txt2 "he" then
      "God manifest vs He who was manifest."
    else if containsSub txt1 "heaven" && containsSub txt2 "heavens" then
      "Heaven vs heavens wording difference."
    else if score < 20 then "Minor wording variation only."
    else if score < 50 then "Noticeable phrasing differences."
    else "Significant textual variation in meaning."

/-!
## Text cleaning

Hand-compilations of the concrete `re.sub` calls in the two source files.
-/

/-- For `\[\d+\]`: if `cs` starts with one or more digits followed by `]`,
return the remainder after the `]`. -/
def afterBracketNum? (cs : List Char) : Option (List Char) :=
  if (cs.takeWhile Char.isDigit).isEmpty then none
  else if (cs.dropWhile Char.isDigit).head? = some ']' then
    some (cs.dropWhile Char.isDigit).tail
  else none

/--
`re.sub(r'\[\d+\]|\d+\s*', '', text)` (`clean_verse_text`, line 20), compiled:
scanning left to right, at `[` the first alternative removes a bracketed
number; at a digit the second alternative removes the maximal digit run and
the whitespace run following it; every other character is kept.  The `fuel`
argument makes the recursion structural; each step consumes at least one
character, so fuel equal to the list length always suffices.
-/
def removeNumsAux : Nat → List Char → List Char
  | 0, cs => cs
  | _, [] => []
  | fuel + 1, c :: cs =>
    if c = '[' then
      match afterBracketNum? cs with
      | some rest => removeNumsAux fuel rest
      | none => c :: removeNumsAux fuel cs
    else if c.isDigit then
      removeNumsAux fuel ((cs.dropWhile Char.isDigit).dropWhile Char.isWhitespace)
    else c :: removeNumsAux fuel cs

/-- The digit-removal substitution of `clean_verse_text`, line 20. -/
def removeNums (cs : List Char) : List Char := removeNumsAux cs.length cs

/-- Case-insensitive "starts with" for the fixed lowercase patterns of the
`re.I` substitutions. -/
def lowerStartsWith (pat cs : List Char) : Bool :=
  decide ((cs.take pat.length).map Char.toLower = pat)

/-- Case-insensitive "ends with". -/
def lowerEndsWith (pat cs : List Char) : Bool :=
  decide (pat <:+ cs.map Char.toLower)

/-- The literal `read full chapter` (17 characters). -/
def phraseRFC : List Char := "read full chapter".toList

/-- The literal `in all english translations` (27 characters). -/
def phraseIAET : List Char := "in all english translations".toList

/-- No newline: the region a dotall-less `.*` can span. -/
def noNL (cs : List Char) : Bool := cs.all (fun c => ¬ c = '\n')

/-- Strip trailing whitespace only. -/
def dropTrailingWs (cs : List Char) : List Char :=
  (cs.reverse.dropWhile Char.isWhitespace).reverse

/--
`re.sub(r'(Read full chapter|in all English translations).*', '', text,
flags=re.I)` (`clean_verse_text`, line 22), compiled: from each leftmost
case-insensitive occurrence of either phrase, `.*` greedily removes the rest
of the line (`.` does not cross a newline; within `clean_verse_text` the input
has already had every whitespace run replaced by a single space, so there is
no newline and the removal runs to the end of the string).
-/
def removePhraseTailAux : Nat → List Char → List Char
  | 0, cs => cs
  | _, [] => []
  | fuel + 1, c :: cs =>
    if lowerStartsWith phraseRFC (c :: cs) || lowerStartsWith phraseIAET (c :: cs) then
      removePhraseTailAux fuel (cs.dropWhile (fun d => ¬ d = '\n'))
    else c :: removePhraseTailAux fuel cs

/-- The boilerplate-phrase substitution of `clean_verse_text`, line 22. -/
def removePhraseTail (cs : List Char) : List Char :=
  removePhraseTailAux cs.length cs

/-- `clean_verse_text` (`find_contradictions.py`, lines 19–23): remove
bracketed/bare numbers, collapse `\s+` to single spaces and strip, cut
boilerplate phrase tails, strip. -/
def clean_verse_text (text : String) : String :=
  let t1 := removeNums text.toList
  let t2 := trimList (collapseWsAux false t1)
  let t3 := removePhraseTail t2
  String.mk (trimList t3)

/--
`re.sub(r"\s{2,}", " ", full_text)` (`get_verse_text`, line 78), compiled:
whitespace runs of length at least two become one space; a lone whitespace
character is left as it is.
-/
def collapseRuns2Aux : Nat → List Char → List Char
  | 0, cs => cs
  | _, [] => []
  | _ + 1, [c] => [c]
  | fuel + 1, c :: d :: rest =>
    if c.isWhitespace && d.isWhitespace then
      ' ' :: collapseRuns2Aux fuel ((d :: rest).dropWhile Char.isWhitespace)
    else c :: collapseRuns2Aux fuel (d :: rest)

/-- The `\s{2,}` collapse of `get_verse_text`, line 78. -/
def collapseRuns2 (cs : List Char) : List Char := collapseRuns2Aux cs.length cs

/--
`re.sub(r"Read full chapter.*?(?:in all English translations)?\s*$", "",
full_text, flags=re.IGNORECASE)` (`get_verse_text`, line 81), compiled: a
position matches when, after the literal, the rest splits as
(newline-free chars) ++ (optionally the second literal) ++ (whitespace up to
the end); since `\s*$` then runs to the end of the string, the replacement
removes everything from the leftmost matching position on.
-/
def matchTailA (s : List Char) : Bool :=
  let core := dropTrailingWs s
  noNL core ||
    (lowerEndsWith phraseIAET core && noNL (core.take (core.length - phraseIAET.length)))

/-- The scan for line 81's substitution: cut at the leftmost matching
occurrence of `Read full chapter`. -/
def removeReadFullChapter : List Char → List Char
  | [] => []
  | c :: cs =>
    if lowerStartsWith phraseRFC (c :: cs) && matchTailA ((c :: cs).drop phraseRFC.length) then
      []
    else c :: removeReadFullChapter cs

/--
`re.sub(r"in all English translations.*$", "", full_text, flags=re.IGNORECASE)`
(`get_verse_text`, line 82), compiled: after the literal, `.*$` matches the
rest when it is newline-free (region to the end) or newline-free up to a
single final newline (`$` just before it, which then survives).
-/
def removeInAllEnglish : List Char → List Char
  | [] => []
  | c :: cs =>
    if lowerStartsWith phraseIAET (c :: cs) then
      let s := (c :: cs).drop phraseIAET.length
      if noNL s then []
      else if s.getLast? = some '\n' && noNL s.dropLast then ['\n']
      else c :: removeInAllEnglish cs
    else c :: removeInAllEnglish cs

/-!
## `get_verse_text` (`extract_bible_verses.py`, lines 52–86)

The HTTP fetch and the BeautifulSoup document are external collaborators.  A
fetched page is modelled as its status code plus what the soup queries see:
`passage` is the container found by class pattern
`passage-content|passage-text|result-text|text-style` (`none` when absent), as
the list of its text fragments, each flagged `noise` when its element matches
`["sup","a","span"]` with class `crossreference|footnote|versenum|chapternum`
(those are `decompose`d).  `get_text(separator=" ", strip=True)` joins the
stripped non-empty fragments of the remaining elements with single spaces.
A `none` fetch result is the exception path (timeout/network error).
-/

structure PassageElem where
  noise : Bool
  text : String

structure FetchedPage where
  status : Nat
  passage : Option (List PassageElem)

/-- `passage.get_text(separator=" ", strip=True)` over the non-noise
fragments. -/
def getTextJoined (elems : List PassageElem) : List Char :=
  List.intercalate [' ']
    (((elems.filter (fun e => ¬ e.noise)).map (fun e => trimList e.text.toList)).filter
      (fun l => ¬ l.isEmpty))

/-- `get_verse_text`: returns the cleaned passage text, or `""` on unknown
version code, fetch failure, non-200 status, or missing passage container. -/
def get_verse_text (version : String) (fetched : Option FetchedPage) : String :=
  match VERSION_CODES.find? (fun p => p.1 = version) with
  | none => ""
  | some _ =>
    match fetched with
    | none => ""
    | some page =>
      if ¬ page.status = 200 then ""
      else
        match page.passage with
        | none => ""
        | some elems =>
          let t0 := getTextJoined elems
          let t1 := trimList (collapseRuns2 t0)
          let t2 := trimList (removeReadFullChapter t1)
          let t3 := trimList (removeInAllEnglish t2)
          String.mk t3

/-!
## `get_all_translations` (`find_contradictions.py`, lines 26–60)

The page is modelled as the list of blocks found by
`soup.find_all(["p","div"], class_=re.compile(r"version|text|result|passage"))`.
For each block, `versionTag` is the text of the `strong/b/span/em` child whose
string matches `\[.*?\]` when one is found (the child is `decompose`d before
`get_text`), and `text` is `block.get_text(" ", strip=True)` after that
removal.  A `none` fetch result is the exception path of the
`requests.get`/`raise_for_status` block.
-/

structure TransBlock where
  versionTag : Option String
  text : String

/-- Python `str.strip("[]")`: drop leading and trailing `[`/`]` characters. -/
def stripBracketChars (cs : List Char) : List Char :=
  let isBr : Char → Bool := fun c => c = '[' || c = ']'
  ((cs.dropWhile isBr).reverse.dropWhile isBr).reverse

/-- The version-code substrings scanned for when a block has no version
label (line 52). -/
def FC_CODES : List String :=
  ["niv", "nlt", "csb", "net", "kjv", "esv", "nasb", "nrsv", "akjv", "msg", "cev", "cjb"]

/-- Python `dict` insertion: overwrite in place on an existing key, else
append. -/
def dictInsert (acc : List (String × String)) (k v : String) :
    List (String × String) :=
  if acc.any (fun p => p.1 = k) then acc.map (fun p => if p.1 = k then (k, v) else p)
  else acc ++ [(k, v)]

/-- `get_all_translations`: build the translation→text mapping from the page's
blocks; empty mapping on fetch failure. -/
def get_all_translations (fetched : Option (List TransBlock)) :
    List (String × String) :=
  match fetched with
  | none => []
  | some blocks =>
    blocks.foldl (fun acc block =>
      let version : Option String :=
        block.versionTag.map (fun tag =>
          String.mk ((stripBracketChars (trimList tag.toList)).map Char.toUpper))
      let text := clean_verse_text block.text
      if ¬ text.isEmpty ∧ text.length > 15 then
        match version with
        | some v => dictInsert acc v text
        | none =>
          match FC_CODES.find? (fun code => containsSub (strLower text) code) with
          | some code => dictInsert acc (String.mk (code.toList.map Char.toUpper)) text
          | none => acc
      else acc) []

/-!
## Traversal lemmas
-/

/-- The always-empty fetch oracle: every probe finds no text (the
"nothing on the site" behaviour, e.g. every fetch timing out). -/
def constFalseOracle : String → Nat → Nat → Bool := fun _ _ _ => false

theorem listIndexOf?_bookPos {b : String} {i : Nat}
    (h : listIndexOf? b BOOKS = some i) : bookPos b = i := by
  unfold bookPos
  rw [h]
  rfl

/-- Each position of the canonical list is the first occurrence of its book:
the 66 names are pairwise distinct. -/
theorem bookPos_getD : ∀ i < BOOKS.length, bookPos (BOOKS.getD i "") = i := by
  decide

theorem refLt_trans {x y z : String × Nat × Nat}
    (h1 : refLt x y) (h2 : refLt y z) : refLt x z := by
  unfold refLt at *
  omega

theorem refLt_book {b b' : String} {c v c' v' : Nat}
    (h : bookPos b < bookPos b') : refLt (b, c, v) (b', c', v') := Or.inl h

theorem refLt_chapter {b b' : String} {c v c' v' : Nat}
    (hb : bookPos b = bookPos b') (h : c < c') : refLt (b, c, v) (b', c', v') :=
  Or.inr ⟨hb, Or.inl h⟩

theorem refLt_verse {b b' : String} {c v c' v' : Nat}
    (hb : bookPos b = bookPos b') (hc : c = c') (h : v < v') :
    refLt (b, c, v) (b', c', v') := Or.inr ⟨hb, Or.inr ⟨hc, h⟩⟩

/-- A failed probe's successor candidate is strictly later in canonical
order. -/
theorem nextCandidate_refLt {b : String} {c v : Nat} {s : String × Nat × Nat}
    (h : nextCandidate b c v = some s) : refLt (b, c, v) s := by
  unfold nextCandidate at h
  by_cases h1 : v + 1 > 176
  · rw [if_pos h1] at h
    by_cases h2 : c + 1 > 150
    · rw [if_pos h2] at h
      cases hix : listIndexOf? b BOOKS with
      | none => rw [hix] at h; exact absurd h (by simp)
      | some idx =>
        rw [hix] at h
        dsimp only at h
        by_cases h3 : idx + 1 < BOOKS.length
        · rw [if_pos h3] at h
          simp only [Option.some.injEq] at h
          subst h
          exact refLt_book
            (by rw [listIndexOf?_bookPos hix, bookPos_getD (idx + 1) h3]; omega)
        · rw [if_neg h3] at h; exact absurd h (by simp)
    · rw [if_neg h2] at h
      simp only [Option.some.injEq] at h
      subst h
      exact refLt_chapter rfl (Nat.lt_succ_self c)
  · rw [if_neg h1] at h
    simp only [Option.some.injEq] at h
    subst h
    exact refLt_verse rfl rfl (Nat.lt_succ_self v)

/-- Any reference the loop returns is at or after the state the loop started
probing from. -/
theorem advanceLoop_refLe (oracle : String → Nat → Nat → Bool) :
    ∀ (fuel : Nat) (b : String) (c v : Nat) (r : String × Nat × Nat),
      (advanceLoop oracle fuel b c v).1 = some r → refLe (b, c, v) r := by
  intro fuel
  induction fuel with
  | zero => intro b c v r h; exact absurd h (by simp [advanceLoop])
  | succ n ih =>
    intro b c v r h
    rw [advanceLoop] at h
    split at h
    · simp only [Option.some.injEq] at h
      exact Or.inr h
    · revert h
      cases hnc : nextCandidate b c v with
      | none => intro h; exact absurd h (by simp)
      | some s =>
        intro h
        simp only at h
        have hle := ih s.1 s.2.1 s.2.2 r h
        have hlt := nextCandidate_refLt hnc
        rcases hle with hlt2 | heq
        · exact Or.inl (refLt_trans hlt hlt2)
        · exact Or.inl (heq ▸ hlt)

/-- The `attempts` counter never exceeds the remaining budget. -/
theorem advanceLoop_attempts_le (oracle : String → Nat → Nat → Bool) :
    ∀ (fuel : Nat) (b : String) (c v : Nat),
      (advanceLoop oracle fuel b c v).2 ≤ fuel := by
  intro fuel
  induction fuel with
  | zero => intro b c v; simp [advanceLoop]
  | succ n ih =>
    intro b c v
    rw [advanceLoop]
    split
    · simp
    · cases hnc : nextCandidate b c v with
      | none => simp
      | some s =>
        simp only
        have := ih s.1 s.2.1 s.2.2
        omega

/--
Claim C1, counterexample.  The claim says budget exhaustion ("could not
advance") and corpus exhaustion ("end of corpus") are surfaced as
*distinguishable* completion signals.  They are not: `advance_reference`
returns the very same value `None` for both.  With the always-failing oracle,
starting at Genesis 1:1 exhausts all 300 probe attempts, and starting at
Revelation 150:176 reaches the end of the canonical corpus after 1 attempt;
both runs return `none`.
-/
theorem claim_C1_counterexample :
    advance_reference constFalseOracle "Genesis" 1 1 = none ∧
    advance_attempts constFalseOracle "Genesis" 1 1 = 300 ∧
    advance_reference constFalseOracle "Revelation" 150 176 = none ∧
    advance_attempts constFalseOracle "Revelation" 150 176 = 1 ∧
    advance_reference constFalseOracle "Genesis" 1 1 =
      advance_reference constFalseOracle "Revelation" 150 176 := by
  refine ⟨?_, ?_, ?_, ?_, ?_⟩
  · set_option maxRecDepth 4000 in rfl
  · set_option maxRecDepth 4000 in rfl
  · rfl
  · rfl
  · set_option maxRecDepth 4000 in rfl

/--
Claim C1, amended.  Both terminal non-success outcomes — exhausting the
maximum total attempt count (300) without finding text, and exhausting the
last canonical book — are surfaced as the *same* non-exception completion
signal `none`; the caller cannot distinguish them.  (Shown on the two runs of
the counterexample: one exhausts the budget, the other the corpus, and the
returned values are equal; and in general the loop only ever returns `some`
reference or `none`.)
-/
theorem claim_C1 :
    advance_attempts constFalseOracle "Genesis" 1 1 = 300 ∧
    advance_attempts constFalseOracle "Revelation" 150 176 = 1 ∧
    advance_reference constFalseOracle "Genesis" 1 1 =
      advance_reference constFalseOracle "Revelation" 150 176 := by
  refine ⟨?_, rfl, ?_⟩
  · set_option maxRecDepth 4000 in rfl
  · set_option maxRecDepth 4000 in rfl

/--
Claim C2, confirmed.  For every starting reference and every fetch oracle,
`advance_reference` issues at most the fixed budget of 300 probe attempts and
yields either a next reference or the no-more-verses outcome: the loop's
attempt counter is bounded by its fuel, so it never loops indefinitely.
-/
theorem claim_C2 (oracle : String → Nat → Nat → Bool) (b : String) (c v : Nat) :
    advance_attempts oracle b c v ≤ 300 ∧
      (advance_reference oracle b c v = none ∨
        ∃ r, advance_reference oracle b c v = some r) := by
  constructor
  · exact advanceLoop_attempts_le oracle 300 b c (v + 1)
  · cases h : advance_reference oracle b c v with
    | none => exact Or.inl rfl
    | some r => exact Or.inr ⟨r, rfl⟩

/--
Claim C3, confirmed.  (1) When the probe at the per-chapter verse ceiling 176
finds no text (and the chapter ceiling is not exceeded), the loop continues at
verse 1 of the following chapter; (2) when the chapter ceiling 150 is exceeded
at a book that has a canonical successor, the loop continues at chapter 1,
verse 1 of that next book; (3) when the book is the last canonical book
(Revelation), the advance yields the end-of-corpus outcome `none`.
-/
theorem claim_C3 (oracle : String → Nat → Nat → Bool) (fuel : Nat) (b : String)
    (c i : Nat) :
    (c < 150 → oracle b c 176 = false →
      advanceLoop oracle (fuel + 1) b c 176 =
        ((advanceLoop oracle fuel b (c + 1) 1).1,
          (advanceLoop oracle fuel b (c + 1) 1).2 + 1)) ∧
    (oracle b 150 176 = false → listIndexOf? b BOOKS = some i →
      i + 1 < BOOKS.length →
      advanceLoop oracle (fuel + 1) b 150 176 =
        ((advanceLoop oracle fuel (BOOKS.getD (i + 1) "") 1 1).1,
          (advanceLoop oracle fuel (BOOKS.getD (i + 1) "") 1 1).2 + 1)) ∧
    (oracle "Revelation" 150 176 = false →
      advanceLoop oracle (fuel + 1) "Revelation" 150 176 = (none, 1)) := by
  refine ⟨?_, ?_, ?_⟩
  · intro hc hfail
    have hnc : nextCandidate b c 176 = some (b, c + 1, 1) := by
      unfold nextCandidate
      rw [if_pos (by omega : 176 + 1 > 176), if_neg (by omega : ¬ c + 1 > 150)]
    simp [advanceLoop, hfail, hnc]
  · intro hfail hix hlt
    have hnc : nextCandidate b 150 176 = some (BOOKS.getD (i + 1) "", 1, 1) := by
      unfold nextCandidate
      rw [if_pos (by omega : 176 + 1 > 176), if_pos (by omega : 150 + 1 > 150), hix]
      exact if_pos hlt
    simp [advanceLoop, hfail, hnc]
  · intro hfail
    have hnc : nextCandidate "Revelation" 150 176 = none := by decide
    simp [advanceLoop, hfail, hnc]

/-- Claim C3, witness: the three transitions at concrete inputs, with the
always-failing oracle (Genesis chapter 1 for the chapter wrap, Genesis
chapter 150 for the book wrap, Revelation 150 for the corpus end). -/
theorem claim_C3_witness :
    advanceLoop constFalseOracle 1 "Genesis" 1 176 =
      ((advanceLoop constFalseOracle 0 "Genesis" 2 1).1,
        (advanceLoop constFalseOracle 0 "Genesis" 2 1).2 + 1) ∧
    advanceLoop constFalseOracle 1 "Genesis" 150 176 =
      ((advanceLoop constFalseOracle 0 (BOOKS.getD 1 "") 1 1).1,
        (advanceLoop constFalseOracle 0 (BOOKS.getD 1 "") 1 1).2 + 1) ∧
    advanceLoop constFalseOracle 1 "Revelation" 150 176 = (none, 1) := by
  have h := claim_C3 constFalseOracle 0 "Genesis" 1 0
  exact ⟨h.1 (by decide) rfl, h.2.1 rfl (by decide) (by decide), h.2.2 rfl⟩

/--
Claim C10, confirmed.  Whenever `advance_reference` returns a reference, that
reference is strictly greater than the input reference in the lexicographic
order on (canonical book index, chapter, verse) — in particular it is never
the input itself, for any oracle behaviour.
-/
theorem claim_C10 (oracle : String → Nat → Nat → Bool) (b : String) (c v : Nat)
    (r : String × Nat × Nat) (h : advance_reference oracle b c v = some r) :
    refLt (b, c, v) r := by
  have hle := advanceLoop_refLe oracle 300 b c (v + 1) r h
  have hlt : refLt (b, c, v) (b, c, v + 1) :=
    Or.inr ⟨rfl, Or.inr ⟨rfl, Nat.lt_succ_self v⟩⟩
  rcases hle with hlt2 | heq
  · exact refLt_trans hlt hlt2
  · exact heq ▸ hlt

/-- Claim C10, witness: with an oracle that has text exactly at verse 3,
advancing from Genesis 1:1 returns Genesis 1:3, which is strictly later. -/
theorem claim_C10_witness : refLt ("Genesis", 1, 1) ("Genesis", 1, 3) :=
  claim_C10 (fun _ _ t => t == 3) "Genesis" 1 1 ("Genesis", 1, 3) (by rfl)

/-!
## List-scanning and character lemmas for the parser proofs
-/

theorem takeWhile_append_of_all {p : Char → Bool} :
    ∀ {xs : List Char}, xs.all p = true → ∀ {y : Char}, p y = false →
      ∀ (ys : List Char), (xs ++ y :: ys).takeWhile p = xs := by
  intro xs
  induction xs with
  | nil =>
    intro _ y hy ys
    simp [List.takeWhile, hy]
  | cons x xs ih =>
    intro h y hy ys
    simp only [List.all_cons, Bool.and_eq_true] at h
    simp [List.takeWhile, h.1, ih h.2 hy ys]

theorem dropWhile_append_of_all {p : Char → Bool} :
    ∀ {xs : List Char}, xs.all p = true → ∀ {y : Char}, p y = false →
      ∀ (ys : List Char), (xs ++ y :: ys).dropWhile p = y :: ys := by
  intro xs
  induction xs with
  | nil =>
    intro _ y hy ys
    simp [List.dropWhile, hy]
  | cons x xs ih =>
    intro h y hy ys
    simp only [List.all_cons, Bool.and_eq_true] at h
    simp [List.dropWhile, h.1, ih h.2 hy ys]

theorem dropWhile_head?_false {p : Char → Bool} :
    ∀ {l : List Char} {c : Char}, (l.dropWhile p).head? = some c → p c = false := by
  intro l
  induction l with
  | nil => intro c h; exact absurd h (by simp [List.dropWhile])
  | cons x xs ih =>
    intro c h
    by_cases hx : p x
    · rw [List.dropWhile_cons_of_pos hx] at h
      exact ih h
    · rw [List.dropWhile_cons_of_neg hx] at h
      simp only [List.head?_cons, Option.some.injEq] at h
      subst h
      simpa using hx

theorem takeWhile_all {p : Char → Bool} :
    ∀ (l : List Char), (l.takeWhile p).all p = true := by
  intro l
  induction l with
  | nil => rfl
  | cons x xs ih =>
    by_cases hx : p x
    · rw [List.takeWhile_cons_of_pos hx]
      simp [hx, ih]
    · rw [List.takeWhile_cons_of_neg hx]
      rfl

theorem dropWhile_eq_self_of_head {p : Char → Bool} {l : List Char}
    (h : ∀ c, l.head? = some c → p c = false) : l.dropWhile p = l := by
  cases l with
  | nil => rfl
  | cons x xs =>
    have := h x (by simp)
    rw [List.dropWhile_cons_of_neg (by simp [this])]

/-- When the head is not whitespace, stripping only removes a trailing
whitespace run. -/
theorem trimList_suffix_split {cs : List Char}
    (h : ∀ c, cs.head? = some c → c.isWhitespace = false) :
    ∃ suf, cs = trimList cs ++ suf ∧ suf.all Char.isWhitespace = true := by
  unfold trimList
  rw [dropWhile_eq_self_of_head h]
  refine ⟨(cs.reverse.takeWhile Char.isWhitespace).reverse, ?_, ?_⟩
  · have hsplit := List.takeWhile_append_dropWhile Char.isWhitespace cs.reverse
    calc cs = cs.reverse.reverse := (List.reverse_reverse cs).symm
    _ = (cs.reverse.takeWhile Char.isWhitespace ++ cs.reverse.dropWhile Char.isWhitespace).reverse := by
        rw [hsplit]
    _ = (cs.reverse.dropWhile Char.isWhitespace).reverse ++ (cs.reverse.takeWhile Char.isWhitespace).reverse := by
        rw [List.reverse_append]
  · rw [List.all_reverse]
    exact takeWhile_all _

/-- The stripped list starts with a non-whitespace character (when nonempty). -/
theorem trimList_head?_not_ws {cs : List Char} {c : Char}
    (h : (trimList cs).head? = some c) : c.isWhitespace = false := by
  unfold trimList at h
  set A := cs.dropWhile Char.isWhitespace with hA
  have hsplit := List.takeWhile_append_dropWhile Char.isWhitespace A.reverse
  have hA2 : A = (A.reverse.dropWhile Char.isWhitespace).reverse ++
      (A.reverse.takeWhile Char.isWhitespace).reverse := by
    calc A = A.reverse.reverse := (List.reverse_reverse A).symm
    _ = (A.reverse.takeWhile Char.isWhitespace ++ A.reverse.dropWhile Char.isWhitespace).reverse := by
        rw [hsplit]
    _ = _ := by rw [List.reverse_append]
  cases htl : (A.reverse.dropWhile Char.isWhitespace).reverse with
  | nil => rw [htl] at h; exact absurd h (by simp)
  | cons x xs =>
    rw [htl] at h
    simp only [List.head?_cons, Option.some.injEq] at h
    have hxA : A.head? = some c := by
      rw [hA2, htl, ← h]
      simp
    rw [hA] at hxA
    exact dropWhile_head?_false hxA

/-- A list with non-whitespace first and last characters strips to itself. -/
theorem trimList_eq_self {l : List Char}
    (h1 : ∀ c, l.head? = some c → c.isWhitespace = false)
    (h2 : ∀ c, l.getLast? = some c → c.isWhitespace = false) :
    trimList l = l := by
  unfold trimList
  rw [dropWhile_eq_self_of_head h1]
  rw [dropWhile_eq_self_of_head (by
    intro c hc
    rw [List.head?_reverse] at hc
    exact h2 c hc)]
  exact List.reverse_reverse l

/-!
### Character facts
-/

theorem char_toNat_ofNat {n : Nat} (h : n < 55296) : (Char.ofNat n).toNat = n := by
  have hv : n.isValidChar := Or.inl (by omega)
  unfold Char.ofNat
  rw [dif_pos hv]
  rfl

theorem char_eq_of_toNat {a b : Char} (h : a.toNat = b.toNat) : a = b := by
  rw [← Char.ofNat_toNat a, ← Char.ofNat_toNat b, h]

theorem isDigit_toNat {c : Char} (h : c.isDigit = true) :
    48 ≤ c.toNat ∧ c.toNat ≤ 57 := by
  simp [Char.isDigit] at h
  exact h

theorem isDigit_not_ws {c : Char} (h : c.isDigit = true) :
    c.isWhitespace = false := by
  have hb := isDigit_toNat h
  by_contra hw
  simp only [Bool.not_eq_false] at hw
  simp only [Char.isWhitespace, Bool.or_eq_true, decide_eq_true_eq] at hw
  rcases hw with ((hw | hw) | hw) | hw <;>
    (subst hw; revert hb; decide)

/-!
### Decimal round-trips

`natOfDigits` (the model of Python `int` on a digit string) and
`natToDigitChars` (the model of Python `str` on an `int`) are mutually
inverse, via Mathlib's `Nat.digits`.
-/

theorem natOfDigits_append_singleton (ds : List Char) (c : Char) :
    natOfDigits (ds ++ [c]) = 10 * natOfDigits ds + (c.toNat - 48) := by
  unfold natOfDigits
  rw [List.foldl_append]
  rfl

theorem natOfDigits_eq_ofDigits (ds : List Char) :
    natOfDigits ds = Nat.ofDigits 10 ((ds.map (fun c => c.toNat - 48)).reverse) := by
  induction ds using List.reverseRecOn with
  | nil => rfl
  | append_singleton ds c ih =>
    rw [natOfDigits_append_singleton, ih, List.map_append, List.reverse_append]
    simp only [List.map_cons, List.map_nil, List.reverse_cons, List.reverse_nil,
      List.nil_append, List.singleton_append, Nat.ofDigits_cons]
    ring

theorem digitCh_toNat {d : Nat} (h : d < 10) : (Char.ofNat (d + 48)).toNat = d + 48 :=
  char_toNat_ofNat (by omega)

theorem digitCh_isDigit {d : Nat} (h : d < 10) : (Char.ofNat (d + 48)).isDigit = true := by
  have ht := digitCh_toNat h
  have h1 : 48 ≤ (Char.ofNat (d + 48)).toNat := by omega
  have h2 : (Char.ofNat (d + 48)).toNat ≤ 57 := by omega
  simp [Char.isDigit]
  exact ⟨h1, h2⟩

theorem digitCh_val {d : Nat} (h : d < 10) : (Char.ofNat (d + 48)).toNat - 48 = d := by
  rw [digitCh_toNat h]
  omega

theorem val_digitCh {c : Char} (h : c.isDigit = true) :
    Char.ofNat ((c.toNat - 48) + 48) = c := by
  have hb := isDigit_toNat h
  have : c.toNat - 48 + 48 = c.toNat := by omega
  rw [this, Char.ofNat_toNat]

theorem map_eq_self_of {α : Type} {l : List α} {f : α → α}
    (h : ∀ a ∈ l, f a = a) : l.map f = l := by
  induction l with
  | nil => rfl
  | cons x xs ih =>
    simp only [List.map_cons, h x (by simp)]
    rw [ih (fun a ha => h a (by simp [ha]))]

theorem natToDigitChars_all_digit (n : Nat) :
    (natToDigitChars n).all Char.isDigit = true := by
  unfold natToDigitChars
  split
  · decide
  · rw [List.all_reverse]
    simp only [List.all_eq_true]
    intro c hc
    rw [List.mem_map] at hc
    obtain ⟨dd, hdd, rfl⟩ := hc
    exact digitCh_isDigit (Nat.digits_lt_base (by omega) hdd)

theorem natToDigitChars_ne_nil (n : Nat) : natToDigitChars n ≠ [] := by
  unfold natToDigitChars
  split
  · simp
  · simp only [ne_eq, List.reverse_eq_nil_iff, List.map_eq_nil_iff]
    exact Nat.digits_ne_nil_iff_ne_zero.mpr (by assumption)

/-- `int(str(n)) = n`. -/
theorem natOfDigits_natToDigitChars (n : Nat) :
    natOfDigits (natToDigitChars n) = n := by
  unfold natToDigitChars
  split
  · subst n; rfl
  · rw [natOfDigits_eq_ofDigits, List.map_reverse, List.reverse_reverse,
      List.map_map]
    have hmap : (Nat.digits 10 n).map ((fun c => c.toNat - 48) ∘ (fun d => Char.ofNat (d + 48))) =
        Nat.digits 10 n := by
      apply map_eq_self_of
      intro d hd
      exact digitCh_val (Nat.digits_lt_base (by omega) hd)
    rw [hmap, Nat.ofDigits_digits]

/-- `str(int(ds)) = ds` for a nonempty digit string with no leading zero. -/
theorem natToDigitChars_natOfDigits {ds : List Char} (hne : ds ≠ [])
    (hdig : ds.all Char.isDigit = true) (hlz : noLeadingZero ds = true) :
    natToDigitChars (natOfDigits ds) = ds := by
  have hvals : ∀ c ∈ ds, c.toNat - 48 < 10 := by
    intro c hc
    have := isDigit_toNat (by rw [List.all_eq_true] at hdig; exact hdig c hc)
    omega
  by_cases h0 : natOfDigits ds = 0
  · -- all digits of a zero value are `'0'`; no leading zero forces `ds = ['0']`
    have hzero : ∀ c ∈ ds, c = '0' := by
      intro c hc
      have hofd := natOfDigits_eq_ofDigits ds
      rw [h0] at hofd
      have hz := @Nat.digits_zero_of_eq_zero 10 (by omega) _ hofd.symm
        (c.toNat - 48) (by
          rw [List.mem_reverse, List.mem_map]
          exact ⟨c, hc, rfl⟩)
      have hd : c.isDigit = true := by rw [List.all_eq_true] at hdig; exact hdig c hc
      have hb := isDigit_toNat hd
      have : c.toNat = 48 := by omega
      exact char_eq_of_toNat (by rw [this]; rfl)
    cases ds with
    | nil => exact absurd rfl hne
    | cons c tail =>
      cases tail with
      | nil =>
        have hc0 := hzero c (by simp)
        subst hc0
        rw [h0]
        rfl
      | cons d tail' =>
        have hc0 := hzero c (by simp)
        rw [hc0] at hlz
        unfold noLeadingZero at hlz
        simp at hlz
  · rw [natOfDigits_eq_ofDigits]
    unfold natToDigitChars
    rw [if_neg (by rw [natOfDigits_eq_ofDigits] at h0; exact h0)]
    rw [Nat.digits_ofDigits 10 (by omega) _
      (by
        intro l hl
        rw [List.mem_reverse, List.mem_map] at hl
        obtain ⟨c, hc, hcl⟩ := hl
        exact hcl ▸ hvals c hc)
      (by
        intro hne2
        -- the last entry of the reversed value list is the first digit
        cases ds with
        | nil => exact absurd rfl hne
        | cons c tail =>
          have hlast : (((c :: tail).map (fun c => c.toNat - 48)).reverse).getLast hne2 =
              c.toNat - 48 := by
            have h1 := List.getLast?_eq_getLast
              (((c :: tail).map (fun c => c.toNat - 48)).reverse) hne2
            rw [List.getLast?_reverse] at h1
            simp only [List.map_cons, List.head?_cons, Option.some.injEq] at h1
            exact h1.symm
          rw [hlast]
          have hd : c.isDigit = true := by
            rw [List.all_eq_true] at hdig; exact hdig c (by simp)
          have hb := isDigit_toNat hd
          intro hvz
          cases tail with
          | nil =>
            -- single digit: value is the digit itself, nonzero since `natOfDigits ds ≠ 0`
            apply h0
            unfold natOfDigits
            simp only [List.foldl_cons, List.foldl_nil]
            omega
          | cons d tail' =>
            -- leading zero excluded: `c ≠ '0'`
            have : c.toNat = 48 := by omega
            have hc0 : c = '0' := char_eq_of_toNat (by rw [this]; rfl)
            rw [hc0] at hlz
            unfold noLeadingZero at hlz
            simp at hlz)]
    rw [List.map_reverse, List.reverse_reverse, List.map_map]
    apply map_eq_self_of
    intro c hc
    have hd : c.isDigit = true := by rw [List.all_eq_true] at hdig; exact hdig c hc
    exact val_digitCh hd

/-!
### Whitespace-collapse lemmas

`normalizeWs` leaves a string alone exactly when its interior whitespace is
already single spaces; the canonical book names have that shape.
-/

/-- Interior whitespace already collapsed: no two adjacent whitespace
characters, every whitespace character is `' '`, and the last character is not
whitespace. -/
def wsCanonical : List Char → Bool
  | [] => true
  | [c] => !c.isWhitespace
  | c :: d :: rest =>
    ((!c.isWhitespace) || (c = ' ' && !d.isWhitespace)) && wsCanonical (d :: rest)

theorem collapseWsAux_cons_nonws {x : Char} (hx : x.isWhitespace = false)
    (b : Bool) (xs : List Char) :
    collapseWsAux b (x :: xs) = x :: collapseWsAux false xs := by
  cases b <;> simp [collapseWsAux, hx]

theorem collapseWsAux_false_ws {x : Char} (hx : x.isWhitespace = true)
    (xs : List Char) :
    collapseWsAux false (x :: xs) = ' ' :: collapseWsAux true xs := by
  simp [collapseWsAux, hx]

theorem collapseWsAux_true_ws {x : Char} (hx : x.isWhitespace = true)
    (xs : List Char) :
    collapseWsAux true (x :: xs) = collapseWsAux true xs := by
  simp [collapseWsAux, hx]

theorem collapseWsAux_nonws {X : List Char}
    (h : X.all (fun c => !c.isWhitespace) = true) :
    ∀ b, collapseWsAux b X = X := by
  induction X with
  | nil => intro b; cases b <;> rfl
  | cons x xs ih =>
    intro b
    simp only [List.all_cons, Bool.and_eq_true, Bool.not_eq_true'] at h
    rw [collapseWsAux_cons_nonws h.1 b]
    rw [ih (by simpa using h.2) false]

theorem collapseWsAux_skip_ws {W : List Char}
    (h : W.all Char.isWhitespace = true) (X : List Char) :
    collapseWsAux true (W ++ X) = collapseWsAux true X := by
  induction W with
  | nil => rfl
  | cons w ws ih =>
    simp only [List.all_cons, Bool.and_eq_true] at h
    rw [List.cons_append, collapseWsAux_true_ws h.1]
    exact ih h.2

theorem collapse_canonical_prefix :
    ∀ {B : List Char}, wsCanonical B = true →
      ∀ rest, collapseWsAux false (B ++ rest) = B ++ collapseWsAux false rest := by
  intro B
  induction B with
  | nil => intro _ rest; rfl
  | cons c B' ih =>
    intro hB rest
    cases hB' : B' with
    | nil =>
      subst hB'
      unfold wsCanonical at hB
      simp only [Bool.not_eq_true'] at hB
      rw [List.cons_append, List.nil_append, collapseWsAux_cons_nonws hB]
      rfl
    | cons d B'' =>
      subst hB'
      unfold wsCanonical at hB
      simp only [Bool.and_eq_true, Bool.or_eq_true, Bool.not_eq_true'] at hB
      obtain ⟨hcd, hrest⟩ := hB
      rcases hcd with hc | ⟨hsp, hd⟩
      · rw [List.cons_append, collapseWsAux_cons_nonws hc]
        rw [ih (by simpa using hrest) rest]
        simp [List.cons_append]
      · rw [decide_eq_true_eq] at hsp
        subst hsp
        have hd' : d.isWhitespace = false := by simpa using hd
        have ihd := ih (by simpa using hrest) rest
        rw [List.cons_append, collapseWsAux_cons_nonws hd' false] at ihd
        have htail : collapseWsAux false (B'' ++ rest) =
            B'' ++ collapseWsAux false rest := by
          simp only [List.cons_append] at ihd
          injection ihd
        rw [List.cons_append, collapseWsAux_false_ws (by decide)]
        rw [List.cons_append, collapseWsAux_cons_nonws hd' true, htail]
        simp [List.cons_append]

/-- The central normalization computation: canonical text, a whitespace run,
then whitespace-free text collapses to single-space form. -/
theorem collapse_canonical_ws_tail {B W X : List Char}
    (hB : wsCanonical B = true) (hW : W.all Char.isWhitespace = true)
    (hWne : W ≠ []) (hX : X.all (fun c => !c.isWhitespace) = true) :
    collapseWsAux false (B ++ W ++ X) = B ++ ' ' :: X := by
  rw [List.append_assoc, collapse_canonical_prefix hB]
  cases W with
  | nil => exact absurd rfl hWne
  | cons w W' =>
    simp only [List.all_cons, Bool.and_eq_true] at hW
    rw [List.cons_append, collapseWsAux_false_ws hW.1]
    rw [collapseWsAux_skip_ws hW.2 X]
    cases X with
    | nil => rfl
    | cons x xs =>
      simp only [List.all_cons, Bool.and_eq_true, Bool.not_eq_true'] at hX
      rw [collapseWsAux_cons_nonws hX.1 true]
      rw [collapseWsAux_nonws (by simpa using hX.2) false]

/-!
### Shape facts about the canonical book names, and the round-trip claims
-/

/-- Boolean conjunction of the shape facts used about each canonical book
name: nonempty; interior whitespace already collapsed; first and last
characters non-whitespace; and with a space appended, dropping the digit
prefix leaves at least two `[A-Za-z\s]` characters (the `parse_reference`
book-group conditions). -/
def bookShape (bk : String) : Bool :=
  let l := bk.toList
  (!l.isEmpty) && wsCanonical l &&
  (l.take 1).all (fun c => !c.isWhitespace) &&
  (l.reverse.take 1).all (fun c => !c.isWhitespace) &&
  decide (2 ≤ ((l ++ [' ']).dropWhile Char.isDigit).length) &&
  ((l ++ [' ']).dropWhile Char.isDigit).all isBookChar

theorem books_shape : ∀ bk ∈ BOOKS, bookShape bk = true := by decide

/-- The digit run before the `:` of a reference string (most significant digit
first): the chapter numeral as written. -/
def chapterField (s : String) : List Char :=
  ((((trimList s.toList).reverse.dropWhile Char.isDigit).drop 1).takeWhile
    Char.isDigit).reverse

/-- The digit run at the end of a reference string: the verse numeral as
written. -/
def verseField (s : String) : List Char :=
  ((trimList s.toList).reverse.takeWhile Char.isDigit).reverse

/-- Everything `parse_reference` success reveals about the input string. -/
theorem parse_reference_inv {s bk : String} {c v : Nat}
    (h : parse_reference s = some (bk, c, v)) :
    ∃ (vD cD r3 : List Char),
      trimList s.toList = r3.reverse ++ (cD.reverse ++ ':' :: vD.reverse) ∧
      vD ≠ [] ∧ vD.all Char.isDigit = true ∧
      cD ≠ [] ∧ cD.all Char.isDigit = true ∧
      (∃ w tl, r3 = w :: tl ∧ w.isWhitespace = true) ∧
      bk = String.mk (trimList r3.reverse) ∧ bk ∈ BOOKS ∧
      c = natOfDigits cD.reverse ∧ v = natOfDigits vD.reverse ∧
      chapterField s = cD.reverse ∧ verseField s = vD.reverse := by
  unfold parse_reference at h
  simp only at h
  split at h
  case isTrue => exact absurd h (by simp)
  case isFalse hvne =>
    revert h
    cases hr1 : (trimList s.toList).reverse.dropWhile Char.isDigit with
    | nil => intro h; exact absurd h (by simp)
    | cons colon r2 =>
      intro h
      split at h
      case h_2 => exact absurd h (by simp)
      case h_1 =>
        rename_i r2 heq
        injection heq with hcol hr2
        subst hcol
        subst hr2
        split at h
        case isTrue => exact absurd h (by simp)
        case isFalse hcne =>
          revert h
          cases hr3 : r2.dropWhile Char.isDigit with
          | nil => intro h; exact absurd h (by simp)
          | cons w tl =>
            intro h
            dsimp only at h
            split at h
            case isTrue => exact absurd h (by simp)
            case isFalse hws0 =>
              split at h
              case isTrue => exact absurd h (by simp)
              case isFalse hlen =>
                split at h
                case isTrue => exact absurd h (by simp)
                case isFalse hall0 =>
                  split at h
                  case isFalse => exact absurd h (by simp)
                  case isTrue hmem =>
                    simp only [Option.some.injEq, Prod.mk.injEq] at h
                    obtain ⟨hbk, hc, hv⟩ := h
                    have hws : w.isWhitespace = true := by
                      by_contra hx
                      exact hws0 (by simpa using hx)
                    have e1 : (trimList s.toList).reverse =
                        (trimList s.toList).reverse.takeWhile Char.isDigit ++
                          ':' :: r2 := by
                      rw [← hr1]
                      exact (List.takeWhile_append_dropWhile _ _).symm
                    have e2 : r2 = r2.takeWhile Char.isDigit ++ (w :: tl) := by
                      rw [← hr3]
                      exact (List.takeWhile_append_dropWhile _ _).symm
                    refine ⟨(trimList s.toList).reverse.takeWhile Char.isDigit,
                      r2.takeWhile Char.isDigit, w :: tl, ?_, ?_,
                      takeWhile_all _, ?_, takeWhile_all _, ⟨w, tl, rfl, hws⟩,
                      hbk.symm, hbk ▸ hmem, hc.symm, hv.symm, ?_, ?_⟩
                    · calc trimList s.toList
                          = ((trimList s.toList).reverse).reverse := by
                            rw [List.reverse_reverse]
                      _ = ((trimList s.toList).reverse.takeWhile Char.isDigit ++
                            ':' :: r2).reverse := by rw [← e1]
                      _ = ((trimList s.toList).reverse.takeWhile Char.isDigit ++
                            ':' :: (r2.takeWhile Char.isDigit ++ (w :: tl))).reverse := by
                          rw [← e2]
                      _ = (w :: tl).reverse ++
                            ((r2.takeWhile Char.isDigit).reverse ++
                              ':' :: ((trimList s.toList).reverse.takeWhile
                                Char.isDigit).reverse) := by
                          simp [List.reverse_append]
                    · intro hemp
                      rw [hemp] at hvne
                      exact hvne rfl
                    · intro hemp
                      rw [hemp] at hcne
                      exact hcne rfl
                    · unfold chapterField
                      rw [hr1]
                      rfl
                    · unfold verseField
                      rfl

theorem all_mono {p q : Char → Bool} (hpq : ∀ a, p a = true → q a = true)
    {l : List Char} (h : l.all p = true) : l.all q = true := by
  rw [List.all_eq_true] at *
  exact fun a ha => hpq a (h a ha)

theorem head?_append_of_ne_nil {l1 l2 : List Char} (h : l1 ≠ []) :
    (l1 ++ l2).head? = l1.head? := by
  cases l1 with
  | nil => exact absurd rfl h
  | cons a l => rfl

theorem getLast?_append_of_ne_nil {l1 l2 : List Char} (h : l2 ≠ []) :
    (l1 ++ l2).getLast? = l2.getLast? := by
  rw [← List.head?_reverse, List.reverse_append,
    head?_append_of_ne_nil (by simpa using h), List.head?_reverse]

/--
Claim C6, counterexample.  The round-trip `format(parse(s)) == s` modulo
whitespace normalization fails on `"Genesis 01:1"`: parsing succeeds (the
regex accepts a leading zero in the chapter numeral and `int` normalizes it),
but formatting renders `"Genesis 1:1"`, which differs from the input by more
than whitespace.
-/
theorem natToDigitChars_one : natToDigitChars 1 = ['1'] := by
  unfold natToDigitChars
  norm_num

theorem claim_C6_counterexample :
    parse_reference "Genesis 01:1" = some ("Genesis", 1, 1) ∧
    normalizeWs (formatReference "Genesis" 1 1) ≠ normalizeWs "Genesis 01:1" := by
  constructor
  · rfl
  · have h2 : formatReference "Genesis" 1 1 = "Genesis 1:1" := by
      unfold formatReference
      rw [natToDigitChars_one]
      rfl
    rw [h2]
    decide

/--
Claim C6, amended.  For every reference string accepted by `parse_reference`
*whose chapter and verse numerals carry no redundant leading zero*, rendering
the parsed result as `"<Book> <Chapter>:<Verse>"` returns the input again
modulo whitespace normalization.  (The counterexample forces the
leading-zero proviso; whitespace normalization alone is otherwise enough.)
-/
theorem claim_C6 (s bk : String) (c v : Nat)
    (h : parse_reference s = some (bk, c, v))
    (hcz : noLeadingZero (chapterField s) = true)
    (hvz : noLeadingZero (verseField s) = true) :
    normalizeWs (formatReference bk c v) = normalizeWs s := by
  obtain ⟨vD, cD, r3, ht, hvne, hvdig, hcne, hcdig, ⟨w, tl, hr3, hws⟩, hbk, hmem,
    hcval, hvval, hcf, hvf⟩ := parse_reference_inv h
  have hsh := books_shape bk hmem
  simp only [bookShape, Bool.and_eq_true] at hsh
  obtain ⟨⟨⟨⟨⟨hne0, hcan⟩, hhead⟩, hlast⟩, _⟩, _⟩ := hsh
  have hBlist : bk.toList = trimList r3.reverse := by rw [hbk]; rfl
  -- the book-plus-trailing-whitespace segment of the input
  have hbAllne : r3.reverse ≠ [] := by
    rw [hr3]
    simp
  have hbAllhead : ∀ x, (r3.reverse).head? = some x → x.isWhitespace = false := by
    intro x hx
    apply @trimList_head?_not_ws s.toList
    rw [ht, head?_append_of_ne_nil hbAllne]
    exact hx
  obtain ⟨W, hsplit, hWws⟩ := trimList_suffix_split hbAllhead
  rw [← hBlist] at hsplit
  -- the trailing whitespace run is nonempty: the segment ends in whitespace,
  -- the book name does not
  have hlastw : (r3.reverse).getLast? = some w := by
    rw [hr3]
    simp only [List.reverse_cons]
    exact List.getLast?_concat _
  have hWne : W ≠ [] := by
    intro hWnil
    rw [hWnil, List.append_nil] at hsplit
    have hBne : bk.toList ≠ [] := by simpa using hne0
    cases hbrev : bk.toList.reverse with
    | nil => exact hBne (by simpa using hbrev)
    | cons y yr =>
      have hy : y.isWhitespace = false := by
        rw [hbrev] at hlast
        simpa using hlast
      have hgl : bk.toList.getLast? = some y := by
        rw [← List.head?_reverse, hbrev]
        rfl
      rw [← hsplit] at hgl
      rw [hlastw] at hgl
      simp only [Option.some.injEq] at hgl
      rw [← hgl] at hy
      rw [hws] at hy
      exact absurd hy (by simp)
  -- the numeric tail is whitespace-free
  have hdignws : ∀ a : Char, a.isDigit = true → (!a.isWhitespace) = true := by
    intro a ha
    simp [isDigit_not_ws ha]
  have hXnws : (cD.reverse ++ ':' :: vD.reverse).all
      (fun c => !c.isWhitespace) = true := by
    simp only [List.all_append, List.all_cons, List.all_reverse,
      Bool.and_eq_true]
    exact ⟨all_mono hdignws hcdig, by decide, all_mono hdignws hvdig⟩
  -- the rendered numerals are exactly the input's numerals
  have hcD : natToDigitChars c = cD.reverse := by
    rw [hcval]
    exact natToDigitChars_natOfDigits (by simpa using hcne)
      (by rw [List.all_reverse]; exact hcdig) (by rw [← hcf]; exact hcz)
  have hvD : natToDigitChars v = vD.reverse := by
    rw [hvval]
    exact natToDigitChars_natOfDigits (by simpa using hvne)
      (by rw [List.all_reverse]; exact hvdig) (by rw [← hvf]; exact hvz)
  -- the formatted string, as a list
  have hfmt0 : (formatReference bk c v).toList =
      (((bk.toList ++ [' ']) ++ natToDigitChars c) ++ [':']) ++ natToDigitChars v :=
    rfl
  have hfmt : (formatReference bk c v).toList =
      (bk.toList ++ [' ']) ++ (cD.reverse ++ ':' :: vD.reverse) := by
    rw [hfmt0, hcD, hvD]
    simp [List.append_assoc]
  -- the formatted string needs no stripping
  have hvDne : vD.reverse ≠ [] := by simpa using hvne
  have htrim : trimList (formatReference bk c v).toList =
      (formatReference bk c v).toList := by
    apply trimList_eq_self
    · intro x hx
      rw [hfmt, List.append_assoc,
        head?_append_of_ne_nil (by simpa using hne0)] at hx
      cases hbl : bk.toList with
      | nil => rw [hbl] at hx; exact absurd hx (by simp)
      | cons b0 brest =>
        rw [hbl] at hx
        simp only [List.head?_cons, Option.some.injEq] at hx
        rw [hbl] at hhead
        simp only [List.take, List.all_cons, Bool.and_eq_true] at hhead
        rw [← hx]
        simpa using hhead.1
    · intro x hx
      rw [hfmt, getLast?_append_of_ne_nil (by simp)] at hx
      rw [show (':' :: vD.reverse) = [':'] ++ vD.reverse from rfl,
        ← List.append_assoc, getLast?_append_of_ne_nil hvDne,
        List.getLast?_reverse] at hx
      cases hvl : vD with
      | nil => exact absurd hvl hvne
      | cons d0 drest =>
        rw [hvl] at hx
        simp only [List.head?_cons, Option.some.injEq] at hx
        rw [hvl] at hvdig
        simp only [List.all_cons, Bool.and_eq_true] at hvdig
        rw [← hx]
        exact isDigit_not_ws hvdig.1
  -- collapse both sides to the same canonical form
  unfold normalizeWs
  rw [htrim, hfmt]
  rw [collapse_canonical_ws_tail hcan (by decide) (by simp) hXnws]
  rw [ht, hsplit]
  rw [collapse_canonical_ws_tail hcan hWws hWne hXnws]

/-- Claim C6, witness: `"Genesis   1:1"` (extra interior whitespace) parses
and round-trips to the normalized `"Genesis 1:1"`. -/
theorem claim_C6_witness :
    parse_reference "Genesis   1:1" = some ("Genesis", 1, 1) ∧
    normalizeWs (formatReference "Genesis" 1 1) = normalizeWs "Genesis   1:1" :=
  ⟨by rfl, claim_C6 "Genesis   1:1" "Genesis" 1 1 (by rfl) (by decide) (by decide)⟩

/-- The book name begins with a numeral (e.g. `"1 Corinthians"`). -/
def startsWithDigit (s : String) : Bool :=
  ((s.toList.head?).map Char.isDigit).getD false

theorem head?_not_ws_of_take {l : List Char}
    (h : ((l.take 1).all fun c => !c.isWhitespace) = true) :
    ∀ x, l.head? = some x → x.isWhitespace = false := by
  intro x hx
  cases l with
  | nil => exact absurd hx (by simp)
  | cons a t =>
    simp only [List.head?_cons, Option.some.injEq] at hx
    simp only [List.take_succ_cons, List.take_zero, List.all_cons, List.all_nil,
      Bool.and_true, Bool.not_eq_true'] at h
    rw [← hx]
    exact h

theorem getLast?_not_ws_of_take {l : List Char}
    (h : ((l.reverse.take 1).all fun c => !c.isWhitespace) = true) :
    ∀ x, l.getLast? = some x → x.isWhitespace = false := by
  intro x hx
  rw [← List.head?_reverse] at hx
  exact head?_not_ws_of_take h x hx

theorem trimList_append_space {B : List Char} (hBne : B ≠ [])
    (hhead : ∀ x, B.head? = some x → x.isWhitespace = false)
    (hlast : ∀ x, B.getLast? = some x → x.isWhitespace = false) :
    trimList (B ++ [' ']) = B := by
  have h1 : List.dropWhile Char.isWhitespace (B ++ [' ']) = B ++ [' '] :=
    dropWhile_eq_self_of_head (by
      intro x hx
      rw [head?_append_of_ne_nil hBne] at hx
      exact hhead x hx)
  have h2 : List.dropWhile Char.isWhitespace B.reverse = B.reverse :=
    dropWhile_eq_self_of_head (by
      intro x hx
      rw [List.head?_reverse] at hx
      exact hlast x hx)
  unfold trimList
  rw [h1, List.reverse_append]
  simp only [List.reverse_cons, List.reverse_nil, List.nil_append,
    List.singleton_append]
  rw [List.dropWhile_cons_of_pos (by decide), h2, List.reverse_reverse]

theorem isDigit_not_bookChar {c : Char} (h : c.isDigit = true) :
    isBookChar c = false := by
  have hb := isDigit_toNat h
  have hws := isDigit_not_ws h
  have hupper : c.isUpper = false := by
    by_contra hx
    simp only [Bool.not_eq_false] at hx
    simp [Char.isUpper] at hx
    have h1 : 65 ≤ c.toNat := hx.1
    have h2 : c.toNat ≤ 90 := hx.2
    omega
  have hlower : c.isLower = false := by
    by_contra hx
    simp only [Bool.not_eq_false] at hx
    simp [Char.isLower] at hx
    have h1 : 97 ≤ c.toNat := hx.1
    have h2 : c.toNat ≤ 122 := hx.2
    omega
  simp [isBookChar, Char.isAlpha, hupper, hlower, hws]

/--
Claim C7, counterexample.  The claim extends leading-numeral book-name
acceptance to *both* entry points, but the single-verse contradiction tool's
regex (`find_contradictions.py` line 127) has no digit prefix in its book
group: `"1 Corinthians 3:16"` parses in the sequential exporter and is
rejected by the contradiction tool.
-/
theorem claim_C7_counterexample :
    parse_reference "1 Corinthians 3:16" = some ("1 Corinthians", 3, 16) ∧
    fc_parse_reference "1 Corinthians 3:16" = none := by
  constructor
  · rfl
  · rfl

/--
Claim C7, amended.  For every canonical book (leading-numeral names included)
and every chapter and verse, the sequential exporter's `parse_reference`
accepts `"<book> <chapter>:<verse>"` and returns exactly that book, chapter
and verse; the single-verse contradiction tool's regex, by contrast, rejects
every reference whose book name starts with a digit.
-/
theorem claim_C7 (bk : String) (hmem : bk ∈ BOOKS) (c v : Nat) :
    parse_reference (formatReference bk c v) = some (bk, c, v) ∧
    (startsWithDigit bk = true →
      fc_parse_reference (formatReference bk c v) = none) := by
  have hsh := books_shape bk hmem
  simp only [bookShape, Bool.and_eq_true] at hsh
  obtain ⟨⟨⟨⟨⟨hne0, hcan⟩, hhead⟩, hlast⟩, hlen2d⟩, hall⟩ := hsh
  have hBne : bk.toList ≠ [] := by simpa using hne0
  have hlen2 : 2 ≤ (List.dropWhile Char.isDigit (bk.toList ++ [' '])).length := by
    simpa using hlen2d
  have hheadf := head?_not_ws_of_take hhead
  have hlastf := getLast?_not_ws_of_take hlast
  have hvall : (natToDigitChars v).reverse.all Char.isDigit = true := by
    rw [List.all_reverse]; exact natToDigitChars_all_digit v
  have hcall : (natToDigitChars c).reverse.all Char.isDigit = true := by
    rw [List.all_reverse]; exact natToDigitChars_all_digit c
  have hfmt0 : (formatReference bk c v).toList =
      (((bk.toList ++ [' ']) ++ natToDigitChars c) ++ [':']) ++ natToDigitChars v :=
    rfl
  have htrimf : trimList (formatReference bk c v).toList =
      (((bk.toList ++ [' ']) ++ natToDigitChars c) ++ [':']) ++ natToDigitChars v := by
    rw [hfmt0]
    apply trimList_eq_self
    · intro x hx
      rw [show (((bk.toList ++ [' ']) ++ natToDigitChars c) ++ [':']) ++
            natToDigitChars v =
          bk.toList ++ ([' '] ++ natToDigitChars c ++ [':'] ++ natToDigitChars v)
          from by simp [List.append_assoc],
        head?_append_of_ne_nil hBne] at hx
      exact hheadf x hx
    · intro x hx
      rw [getLast?_append_of_ne_nil (natToDigitChars_ne_nil v),
        ← List.head?_reverse] at hx
      have hx2 : ∀ y ∈ (natToDigitChars v), y.isDigit = true := by
        have := natToDigitChars_all_digit v
        rw [List.all_eq_true] at this
        exact this
      cases hnv : (natToDigitChars v).reverse with
      | nil =>
        rw [hnv] at hx
        exact absurd hx (by simp)
      | cons y ys =>
        rw [hnv] at hx
        simp only [List.head?_cons, Option.some.injEq] at hx
        have hy : y ∈ natToDigitChars v := by
          rw [← List.mem_reverse, hnv]; simp
        rw [← hx]
        exact isDigit_not_ws (hx2 y hy)
  have hrev : ((((bk.toList ++ [' ']) ++ natToDigitChars c) ++ [':']) ++
      natToDigitChars v).reverse =
      (natToDigitChars v).reverse ++ ':' ::
        ((natToDigitChars c).reverse ++ ' ' :: bk.toList.reverse) := by
    simp [List.reverse_append]
  have hcolon : (':' : Char).isDigit = false := by decide
  have hspace : (' ' : Char).isDigit = false := by decide
  have htake1 : ((natToDigitChars v).reverse ++ ':' ::
      ((natToDigitChars c).reverse ++ ' ' :: bk.toList.reverse)).takeWhile
        Char.isDigit = (natToDigitChars v).reverse :=
    takeWhile_append_of_all hvall hcolon _
  have hdrop1 : ((natToDigitChars v).reverse ++ ':' ::
      ((natToDigitChars c).reverse ++ ' ' :: bk.toList.reverse)).dropWhile
        Char.isDigit = ':' ::
        ((natToDigitChars c).reverse ++ ' ' :: bk.toList.reverse) :=
    dropWhile_append_of_all hvall hcolon _
  have htake2 : ((natToDigitChars c).reverse ++ ' ' ::
      bk.toList.reverse).takeWhile Char.isDigit = (natToDigitChars c).reverse :=
    takeWhile_append_of_all hcall hspace _
  have hdrop2 : ((natToDigitChars c).reverse ++ ' ' ::
      bk.toList.reverse).dropWhile Char.isDigit = ' ' :: bk.toList.reverse :=
    dropWhile_append_of_all hcall hspace _
  have hvne : ((natToDigitChars v).reverse.isEmpty = true) → False := by
    intro hx
    exact natToDigitChars_ne_nil v (by simpa using hx)
  have hcne : ((natToDigitChars c).reverse.isEmpty = true) → False := by
    intro hx
    exact natToDigitChars_ne_nil c (by simpa using hx)
  have hbAll : (' ' :: bk.toList.reverse).reverse = bk.toList ++ [' '] := by
    simp
  have htrimB : trimList (bk.toList ++ [' ']) = bk.toList :=
    trimList_append_space hBne hheadf hlastf
  have hmkbk : String.mk bk.toList = bk := rfl
  constructor
  · unfold parse_reference
    dsimp only
    rw [htrimf, hrev, htake1, hdrop1]
    rw [if_neg hvne]
    split
    case h_2 heq =>
      exact absurd (heq _ rfl) (by simp)
    case h_1 r2 heq =>
      injection heq with h1 h2
      subst h2
      rw [htake2, hdrop2]
      rw [if_neg hcne]
      dsimp only
      rw [if_neg (by simp)]
      rw [hbAll]
      rw [if_neg (by omega)]
      rw [if_neg (fun hcon => hcon hall)]
      rw [htrimB, hmkbk, if_pos hmem]
      rw [List.reverse_reverse, List.reverse_reverse]
      rw [natOfDigits_natToDigitChars, natOfDigits_natToDigitChars]
  · intro hsd
    have hdigit0 : ∃ b0 rest, bk.toList = b0 :: rest ∧ b0.isDigit = true := by
      cases hbl : bk.toList with
      | nil => exact absurd hbl hBne
      | cons b0 rest =>
        refine ⟨b0, rest, rfl, ?_⟩
        unfold startsWithDigit at hsd
        rw [hbl] at hsd
        simpa using hsd
    obtain ⟨b0, rest, hbl, hb0⟩ := hdigit0
    have hallfalse : ((bk.toList ++ [' ']).all isBookChar = true) → False := by
      intro hx
      rw [List.all_eq_true] at hx
      have := hx b0 (by rw [hbl]; simp)
      rw [isDigit_not_bookChar hb0] at this
      exact absurd this (by simp)
    unfold fc_parse_reference
    dsimp only
    rw [htrimf, hrev, htake1, hdrop1]
    rw [if_neg hvne]
    split
    case h_2 heq =>
      exact absurd (heq _ rfl) (by simp)
    case h_1 r2 heq =>
      injection heq with h1 h2
      subst h2
      rw [htake2, hdrop2]
      rw [if_neg hcne]
      dsimp only
      rw [if_neg (by simp)]
      rw [hbAll]
      rw [if_neg (by
        have hpos := List.length_pos.mpr hBne
        rw [List.length_append]
        simp only [List.length_cons, List.length_nil]
        omega)]
      rw [if_pos (by simpa using hallfalse)]

/-- Claim C7, witness: the amended statement at `"1 Corinthians"`, chapter 3,
verse 16. -/
theorem claim_C7_witness :
    parse_reference (formatReference "1 Corinthians" 3 16) =
      some ("1 Corinthians", 3, 16) ∧
    fc_parse_reference (formatReference "1 Corinthians" 3 16) = none := by
  have h := claim_C7 "1 Corinthians" (by decide) 3 16
  exact ⟨h.1, h.2 (by decide)⟩

/-!
### Scorer claims (C4, C5)
-/

/-- The number of diffs produced by the double loop is the number of unordered
pairs. -/
theorem pairwiseDiffs_length (ts : List String) :
    (pairwiseDiffs ts).length = ts.length.choose 2 := by
  induction ts with
  | nil => rfl
  | cons t ts ih =>
    simp only [pairwiseDiffs, List.length_append, List.length_map, ih,
      List.length_cons]
    have hcs : (ts.length + 1).choose 2 = ts.length.choose 1 + ts.length.choose 2 :=
      Nat.choose_succ_succ ts.length 1
    rw [Nat.choose_one_right] at hcs
    omega

theorem roundHalfEven_nonneg {q : ℚ} (h : 0 ≤ q) : 0 ≤ roundHalfEven q := by
  unfold roundHalfEven
  dsimp only
  have hf : (0 : ℤ) ≤ ⌊q⌋ := Int.floor_nonneg.mpr h
  split
  · exact hf
  · split
    · omega
    · split <;> omega

theorem roundHalfEven_le {q : ℚ} {n : ℤ} (h : q ≤ n) : roundHalfEven q ≤ n := by
  unfold roundHalfEven
  dsimp only
  have hfle : ⌊q⌋ ≤ n := by
    have := Int.floor_le_floor h
    rwa [Int.floor_intCast] at this
  split
  · exact hfle
  · have hlt : ⌊q⌋ < n := by
      rename_i hr
      have h1 : (⌊q⌋ : ℚ) ≤ q - 1/2 := by
        have := Int.floor_le q
        push_neg at hr
        linarith
      have h2 : (⌊q⌋ : ℚ) < (n : ℚ) := by
        have : (n : ℚ) - 1/2 < n := by linarith
        calc (⌊q⌋ : ℚ) ≤ q - 1/2 := h1
        _ ≤ (n : ℚ) - 1/2 := by linarith
        _ < n := this
      exact_mod_cast h2
    split
    · omega
    · split <;> omega

theorem roundTo1_nonneg {q : ℚ} (h : 0 ≤ q) : 0 ≤ roundTo1 q := by
  unfold roundTo1
  have h1 : (0 : ℤ) ≤ roundHalfEven (10 * q) :=
    roundHalfEven_nonneg (by linarith)
  have h2 : (0 : ℚ) ≤ (roundHalfEven (10 * q) : ℚ) := by exact_mod_cast h1
  positivity

theorem roundTo1_le_100 {q : ℚ} (h : q ≤ 100) : roundTo1 q ≤ 100 := by
  unfold roundTo1
  have h1 : (10 : ℚ) * q ≤ ((1000 : ℤ) : ℚ) := by push_cast; linarith
  have h2 := roundHalfEven_le h1
  rw [div_le_iff (by norm_num)]
  have h3 : (roundHalfEven (10 * q) : ℚ) ≤ ((1000 : ℤ) : ℚ) := by exact_mod_cast h2
  push_cast at h3 ⊢
  linarith

/--
Claim C4, confirmed.  For every variants mapping: with fewer than 2 entries
the score is exactly 0; with at least 2 entries it equals the sum of the
symmetric-difference sizes over all unordered pairs, divided by the number of
unordered pairs (`n.choose 2`), multiplied by the scaling constant 5, clamped
above at 100, and rounded to one decimal place; and the result always lies in
[0, 100].
-/
theorem claim_C4 (variants : List (String × String)) :
    (variants.length < 2 → calculate_contradiction_score variants = 0) ∧
    (2 ≤ variants.length →
      calculate_contradiction_score variants =
        roundTo1 (min 100
          (((pairwiseDiffs (variants.map Prod.snd)).sum : ℚ) /
            ((variants.length.choose 2 : ℕ) : ℚ) * 5))) ∧
    0 ≤ calculate_contradiction_score variants ∧
    calculate_contradiction_score variants ≤ 100 := by
  have hform : 2 ≤ variants.length →
      calculate_contradiction_score variants =
        roundTo1 (min 100
          (((pairwiseDiffs (variants.map Prod.snd)).sum : ℚ) /
            ((variants.length.choose 2 : ℕ) : ℚ) * 5)) := by
    intro h2
    unfold calculate_contradiction_score
    rw [if_neg (by omega)]
    dsimp only
    have hlen : (pairwiseDiffs (variants.map Prod.snd)).length =
        variants.length.choose 2 := by
      rw [pairwiseDiffs_length, List.length_map]
    have hpos : 0 < variants.length.choose 2 := Nat.choose_pos h2
    rw [if_neg (by omega : ¬ (pairwiseDiffs (variants.map Prod.snd)).length = 0)]
    rw [hlen]
  refine ⟨?_, hform, ?_⟩
  · intro h
    unfold calculate_contradiction_score
    rw [if_pos h]
  · by_cases h2 : 2 ≤ variants.length
    · rw [hform h2]
      have hq0 : (0 : ℚ) ≤
          ((pairwiseDiffs (variants.map Prod.snd)).sum : ℚ) /
            ((variants.length.choose 2 : ℕ) : ℚ) * 5 := by positivity
      have hmin0 : (0 : ℚ) ≤ min 100
          (((pairwiseDiffs (variants.map Prod.snd)).sum : ℚ) /
            ((variants.length.choose 2 : ℕ) : ℚ) * 5) :=
        le_min (by norm_num) hq0
      have hmin100 : min (100 : ℚ)
          (((pairwiseDiffs (variants.map Prod.snd)).sum : ℚ) /
            ((variants.length.choose 2 : ℕ) : ℚ) * 5) ≤ 100 := min_le_left _ _
      exact ⟨roundTo1_nonneg hmin0, roundTo1_le_100 hmin100⟩
    · have h0 : calculate_contradiction_score variants = 0 := by
        unfold calculate_contradiction_score
        rw [if_pos (by omega)]
      rw [h0]
      norm_num

/-- Claim C4, witness: the degenerate empty mapping scores 0; a concrete
two-variant mapping follows the pairwise formula and lies in [0, 100]. -/
theorem claim_C4_witness :
    calculate_contradiction_score [] = 0 ∧
    calculate_contradiction_score [("A", "x y"), ("B", "y z")] =
      roundTo1 (min 100
        (((pairwiseDiffs ([("A", "x y"), ("B", "y z")].map Prod.snd)).sum : ℚ) /
          ((([("A", "x y"), ("B", "y z")] : List (String × String)).length.choose 2 : ℕ) : ℚ) * 5)) ∧
    0 ≤ calculate_contradiction_score [("A", "x y"), ("B", "y z")] ∧
    calculate_contradiction_score [("A", "x y"), ("B", "y z")] ≤ 100 :=
  ⟨(claim_C4 []).1 (by decide),
   (claim_C4 [("A", "x y"), ("B", "y z")]).2.1 (by decide),
   (claim_C4 [("A", "x y"), ("B", "y z")]).2.2⟩

/-- The concrete variants mapping of the specification's scenario (KJV first,
NIV second, insertion order preserved). -/
def johnVariants : List (String × String) :=
  [("KJV", "for god so loved the world"),
   ("NIV", "for god so loved the world that he gave")]

theorem johnVariants_score : calculate_contradiction_score johnVariants = 15 := by
  unfold calculate_contradiction_score
  rw [if_neg (by decide)]
  dsimp only
  have hdiffs : pairwiseDiffs (johnVariants.map Prod.snd) = [3] := by decide
  rw [hdiffs]
  rw [if_neg (by decide)]
  have hmin : min (100 : ℚ) ((([3] : List ℕ).sum : ℚ) / (([3] : List ℕ).length : ℚ) * 5) = 15 := by
    norm_num
  rw [hmin]
  unfold roundTo1 roundHalfEven
  dsimp only
  norm_num

/--
Claim C5, counterexample.  On the concrete scenario the score is 15.0 as
claimed, but the description is *not* the "minor wording variation" score-band
fallback: the third keyword rule fires, because `"god"` occurs in the first
text and `"he"` occurs as a substring of the second (inside `"the"`, and as
the word `"he"`), and rule order puts keyword rules before the score bands.
-/
theorem claim_C5_counterexample :
    calculate_contradiction_score johnVariants = 15 ∧
    generate_short_contradiction_desc johnVariants
      (calculate_contradiction_score johnVariants) ≠
      "Minor wording variation only." := by
  refine ⟨johnVariants_score, ?_⟩
  intro hcon
  rw [show generate_short_contradiction_desc johnVariants
        (calculate_contradiction_score johnVariants) =
      "God manifest vs He who was manifest." from by decide] at hcon
  exact absurd hcon (by decide)

/--
Claim C5, amended.  For the spec's concrete scenario the computed score is
exactly 15.0, and the description is the keyword-rule phrase
`"God manifest vs He who was manifest."` — the `"god"`/`"he"` substring rule
matches (Python `in` is substring containment), so the score-band fallback is
never consulted.
-/
theorem claim_C5 :
    calculate_contradiction_score johnVariants = 15 ∧
    generate_short_contradiction_desc johnVariants
      (calculate_contradiction_score johnVariants) =
      "God manifest vs He who was manifest." :=
  ⟨johnVariants_score, by decide⟩

/-!
### Extractor claims (C8, C9)
-/

/--
Claim C8, confirmed.  The text-extraction operations represent every failure
as an empty result rather than an error: `get_verse_text` returns `""` on a
fetch exception, on a non-200 status, and on a page with no passage container;
`get_all_translations` returns the empty mapping on a fetch exception and on a
page with no matching blocks.  (Both functions are total on all inputs by
construction — the embedding has no exceptional path at all.)
-/
theorem claim_C8 :
    (∀ version : String, get_verse_text version none = "") ∧
    (∀ (version : String) (page : FetchedPage), ¬ page.status = 200 →
      get_verse_text version (some page) = "") ∧
    (∀ (version : String) (st : Nat),
      get_verse_text version (some ⟨st, none⟩) = "") ∧
    get_all_translations none = [] ∧
    get_all_translations (some []) = [] := by
  refine ⟨?_, ?_, ?_, rfl, rfl⟩
  · intro version
    unfold get_verse_text
    split
    · rfl
    · rfl
  · intro version page hst
    unfold get_verse_text
    split
    · rfl
    · dsimp only
      rw [if_pos hst]
  · intro version st
    unfold get_verse_text
    split
    · rfl
    · dsimp only
      split
      · rfl
      · rfl

/-- Claim C8, witness: a 404 page, and a 200 page with no passage container,
both yield the empty string. -/
theorem claim_C8_witness :
    get_verse_text "NIV" (some ⟨404, some []⟩) = "" ∧
    get_verse_text "NIV" (some ⟨200, none⟩) = "" :=
  ⟨claim_C8.2.1 "NIV" ⟨404, some []⟩ (by decide), claim_C8.2.2.1 "NIV" 200⟩

theorem afterBracketNum?_none_of_no_digits {cs : List Char}
    (h : (cs.all fun ch => !ch.isDigit) = true) : afterBracketNum? cs = none := by
  cases cs with
  | nil => rfl
  | cons a l =>
    simp only [List.all_cons, Bool.and_eq_true, Bool.not_eq_true'] at h
    unfold afterBracketNum?
    rw [List.takeWhile_cons_of_neg (by simp [h.1])]
    rfl

theorem removeNumsAux_eq_self :
    ∀ (fuel : Nat) (cs : List Char), (cs.all fun ch => !ch.isDigit) = true →
      removeNumsAux fuel cs = cs := by
  intro fuel
  induction fuel with
  | zero => intro cs _; cases cs <;> rfl
  | succ n ih =>
    intro cs h
    cases cs with
    | nil => rfl
    | cons c cs =>
      simp only [List.all_cons, Bool.and_eq_true, Bool.not_eq_true'] at h
      unfold removeNumsAux
      by_cases hc : c = '['
      · rw [if_pos hc, afterBracketNum?_none_of_no_digits h.2]
        rw [ih cs h.2, hc]
      · rw [if_neg hc, if_neg (by simp [h.1])]
        rw [ih cs h.2]

theorem lowerStartsWith_occurs {pat cs : List Char}
    (h : lowerStartsWith pat cs = true) : pat <:+: cs.map Char.toLower := by
  unfold lowerStartsWith at h
  rw [decide_eq_true_eq] at h
  rw [← h, List.map_take]
  exact (List.take_prefix _ _).isInfix

theorem removePhraseTailAux_eq_self :
    ∀ (fuel : Nat) (cs : List Char),
      ¬ phraseRFC <:+: cs.map Char.toLower →
      ¬ phraseIAET <:+: cs.map Char.toLower →
      removePhraseTailAux fuel cs = cs := by
  intro fuel
  induction fuel with
  | zero => intro cs _ _; cases cs <;> rfl
  | succ n ih =>
    intro cs h1 h2
    cases cs with
    | nil => rfl
    | cons c cs =>
      have hA : lowerStartsWith phraseRFC (c :: cs) = false := by
        by_contra hx
        simp only [Bool.not_eq_false] at hx
        exact h1 (lowerStartsWith_occurs hx)
      have hB : lowerStartsWith phraseIAET (c :: cs) = false := by
        by_contra hx
        simp only [Bool.not_eq_false] at hx
        exact h2 (lowerStartsWith_occurs hx)
      unfold removePhraseTailAux
      rw [if_neg (by simp [hA, hB])]
      rw [ih cs
        (fun hinf => h1 (by rw [List.map_cons]; exact List.infix_cons hinf))
        (fun hinf => h2 (by rw [List.map_cons]; exact List.infix_cons hinf))]

theorem wsCanonical_getLast :
    ∀ {l : List Char}, wsCanonical l = true →
      ∀ x, l.getLast? = some x → x.isWhitespace = false := by
  intro l
  induction l with
  | nil => intro _ x hx; exact absurd hx (by simp)
  | cons c l ih =>
    intro h x hx
    cases l with
    | nil =>
      simp only [List.getLast?_singleton, Option.some.injEq] at hx
      unfold wsCanonical at h
      simp only [Bool.not_eq_true'] at h
      rw [← hx]
      exact h
    | cons d rest =>
      unfold wsCanonical at h
      simp only [Bool.and_eq_true] at h
      rw [List.getLast?_cons_cons] at hx
      exact ih h.2 x hx

/--
Claim C9, counterexample.  Text cleaning does *not* preserve all legitimate
verse content: the substitution `\d+\s*` in `clean_verse_text` removes every
digit run, so the number in `"there were 12 tribes"` — part of the verse text
itself — is deleted.
-/
theorem claim_C9_counterexample :
    clean_verse_text "there were 12 tribes" = "there were tribes" ∧
    "there were tribes" ≠ "there were 12 tribes" := by
  constructor
  · decide
  · decide

/--
Claim C9, amended.  Cleaning removes footnote markers, whitespace noise and
boilerplate tails, but also removes *every* digit run — including numbers that
are legitimate verse content (the counterexample).  What is preserved:
digit-free verse text in canonical whitespace form containing no occurrence of
either boilerplate phrase passes through `clean_verse_text` unchanged; and the
exporter's suffix trimming leaves text that shares only leading words with a
boilerplate pattern (`"read full"` without `"chapter"`) intact.
-/
theorem claim_C9 :
    clean_verse_text "there were 12 tribes" = "there were tribes" ∧
    (∀ s : String,
      (s.toList.all fun ch => !ch.isDigit) = true →
      wsCanonical s.toList = true →
      ((s.toList.take 1).all fun ch => !ch.isWhitespace) = true →
      ¬ phraseRFC <:+: s.toList.map Char.toLower →
      ¬ phraseIAET <:+: s.toList.map Char.toLower →
      clean_verse_text s = s) ∧
    get_verse_text "NIV"
      (some ⟨200, some [⟨false, "He said read full measure"⟩]⟩) =
      "He said read full measure" := by
  refine ⟨by decide, ?_, by decide⟩
  intro s hdig hcanon htake hrfc hiaet
  have hhead := head?_not_ws_of_take htake
  have hlast := wsCanonical_getLast hcanon
  unfold clean_verse_text
  dsimp only
  unfold removeNums
  rw [removeNumsAux_eq_self _ _ hdig]
  have hcol : collapseWsAux false s.toList = s.toList := by
    have h := collapse_canonical_prefix hcanon []
    simpa [collapseWsAux] using h
  rw [hcol, trimList_eq_self hhead hlast]
  unfold removePhraseTail
  rw [removePhraseTailAux_eq_self _ _ hrfc hiaet]
  rw [trimList_eq_self hhead hlast]
  rfl

/-- Claim C9, witness: the preservation statement at the digit-free verse
text `"For God so loved the world."`. -/
theorem claim_C9_witness :
    clean_verse_text "For God so loved the world." = "For God so loved the world." :=
  claim_C9.2.1 "For God so loved the world." (by decide) (by decide) (by decide)
    (by decide) (by decide)

end BibleDiscrepancies
